import Mathlib

/-!
Verification development for the `io-http` HTTP/1.1 protocol engine.

The definitions below are shallow embeddings of the Rust source:
bytes are `Nat` (values < 256 in practice), byte buffers are `List Nat`,
and each resumable coroutine is modelled as a function over an explicit
state together with the list of byte packets the driver would feed to
its inner `ReadStream` sub-coroutine (the end of that list plays the
role of EOF).
-/

namespace IoHttp

/-- Byte constant `b'\r'`. -/
def CR : Nat := 13

/-- Byte constant `b'\n'`. -/
def LF : Nat := 10

/-- The `CRLF` constant from `read-chunks.rs`. -/
def crlf : List Nat := [CR, LF]

/-- The `CRLF_CRLF` constant from `read-chunks.rs`. -/
def crlfCrlf : List Nat := [CR, LF, CR, LF]

/-- `memmem::find`: index of the first occurrence of `pat` in the haystack. -/
def findSub (pat : List Nat) : List Nat → Option Nat
  | [] => if pat.isPrefixOf ([] : List Nat) then some 0 else none
  | b :: rest =>
    if pat.isPrefixOf (b :: rest) then some 0
    else (findSub pat rest).map (· + 1)

/-- `memmem::rfind`: index of the last occurrence of `pat` in the haystack. -/
def rfindSub (pat : List Nat) : List Nat → Option Nat
  | [] => if pat.isPrefixOf ([] : List Nat) then some 0 else none
  | b :: rest =>
    match rfindSub pat rest with
    | some i => some (i + 1)
    | none => if pat.isPrefixOf (b :: rest) then some 0 else none

/-- `memchr::memchr`: index of the first occurrence of byte `c`. -/
def findByte (c : Nat) : List Nat → Option Nat
  | [] => none
  | b :: rest => if b = c then some 0 else (findByte c rest).map (· + 1)

/-- Value of an ASCII hexadecimal digit byte (case-insensitive, as in
`usize::from_str_radix(_, 16)`). -/
def hexDigitVal (b : Nat) : Option Nat :=
  if 48 ≤ b ∧ b ≤ 57 then some (b - 48)
  else if 97 ≤ b ∧ b ≤ 102 then some (b - 87)
  else if 65 ≤ b ∧ b ≤ 70 then some (b - 55)
  else none

/-- Left fold accumulating hexadecimal digits. -/
def hexAccum : List Nat → Nat → Option Nat
  | [], acc => some acc
  | b :: rest, acc =>
    match hexDigitVal b with
    | none => none
    | some d => hexAccum rest (16 * acc + d)

/-- Parse a non-empty run of hexadecimal digits. -/
def hexParseAll (l : List Nat) : Option Nat :=
  if l = [] then none else hexAccum l 0

/-- `usize::from_str_radix(s, 16)` on the bytes of `s`: an optional leading
`+` sign followed by at least one hex digit; no `0x` handling. -/
def fromStrRadix16 (l : List Nat) : Option Nat :=
  match l with
  | 43 :: rest => hexParseAll rest
  | _ => hexParseAll l

/-- The `State` enum of `ReadStreamChunks` (`read-chunks.rs`). -/
inductive ChunkState
  | chunkSize
  | chunkData (remaining : Nat)
  | trailer
deriving DecidableEq, Repr

/-- Errors of `ReadStreamChunks` (EOF, or an unparsable chunk-size line). -/
inductive ChunksErr
  | unexpectedEof
  | invalidChunkSize (bytes : List Nat)
deriving DecidableEq, Repr

/-- Terminal outcome of driving `ReadStreamChunks` to the end.
`panicked` marks the Rust drain-range underflow
`self.body.drain(self.body.len() - CRLF.len()..)` when `body.len() < 2`. -/
inductive ChunksResult
  | ok (body : List Nat)
  | err (e : ChunksErr)
  | panicked
deriving DecidableEq, Repr

/-- Rank used for the termination measure: the `ChunkData(0)` arm moves to
`ChunkSize` without consuming input. -/
def stateRank : ChunkState → Nat
  | .chunkData 0 => 1
  | _ => 0

theorem isPrefixOf_true_length {l₁ l₂ : List Nat} (h : l₁.isPrefixOf l₂ = true) :
    l₁.length ≤ l₂.length := by
  induction l₁ generalizing l₂ with
  | nil => simp
  | cons a as ih =>
    cases l₂ with
    | nil => simp [List.isPrefixOf] at h
    | cons b bs =>
      simp only [List.isPrefixOf, Bool.and_eq_true] at h
      simpa using ih h.2

theorem findSub_add_le {pat : List Nat} :
    ∀ {l : List Nat} {i : Nat}, findSub pat l = some i → i + pat.length ≤ l.length := by
  intro l
  induction l with
  | nil =>
    intro i h
    simp only [findSub] at h
    split at h
    · rename_i hp
      cases h
      simpa using isPrefixOf_true_length hp
    · cases h
  | cons b rest ih =>
    intro i h
    simp only [findSub] at h
    split at h
    · rename_i hp
      cases h
      simpa using isPrefixOf_true_length hp
    · match hr : findSub pat rest with
      | none => rw [hr] at h; cases h
      | some j =>
        rw [hr] at h
        simp only [Option.map_some'] at h
        cases h
        have := ih hr
        simp only [List.length_cons]
        omega

theorem findByte_lt {c : Nat} :
    ∀ {l : List Nat} {i : Nat}, findByte c l = some i → i < l.length := by
  intro l
  induction l with
  | nil => intro i h; cases h
  | cons b rest ih =>
    intro i h
    simp only [findByte] at h
    split at h
    · cases h; simp
    · match hr : findByte c rest with
      | none => rw [hr] at h; cases h
      | some j =>
        rw [hr] at h
        simp only [Option.map_some'] at h
        cases h
        have := ih hr
        simp only [List.length_cons]
        omega

theorem fromStrRadix16_ne_nil {l : List Nat} {v : Nat} (h : fromStrRadix16 l = some v) :
    l ≠ [] := by
  intro hl
  subst hl
  simp [fromStrRadix16, hexParseAll] at h

/-- `ReadStreamChunks::resume` (`read-chunks.rs`), driven to completion.
`buffer` is the raw-input accumulator, `body` the decoded-body accumulator,
and `reads` the successive packets the inner `ReadStream` would return
(an exhausted list means the next read yields `Eof`). -/
def runChunks : ChunkState → List Nat → List Nat → List (List Nat) → ChunksResult
  | .chunkSize, buffer, body, reads =>
    match hf : findSub crlf buffer with
    | none =>
      match reads with
      | [] => .err .unexpectedEof
      | r :: rs => runChunks .chunkSize (buffer ++ r) body rs
    | some crlfPos =>
      let ext := (findByte 59 (buffer.take crlfPos)).getD crlfPos
      match hp : fromStrRadix16 (buffer.take ext) with
      | none => .err (.invalidChunkSize (buffer.take ext))
      | some 0 => runChunks .trailer (buffer.drop crlfPos) body reads
      | some (n + 1) =>
        runChunks (.chunkData (n + 1 + crlf.length)) (buffer.drop (crlfPos + crlf.length))
          body reads
  | .chunkData 0, buffer, body, reads =>
    if 2 ≤ body.length then
      runChunks .chunkSize buffer (body.take (body.length - crlf.length)) reads
    else .panicked
  | .chunkData (k + 1), buffer, body, reads =>
    match buffer with
    | [] =>
      match reads with
      | [] => .err .unexpectedEof
      | r :: rs => runChunks (.chunkData (k + 1)) r body rs
    | b :: bs =>
      let m := min ((b :: bs).length) (k + 1)
      runChunks (.chunkData (k + 1 - m)) ((b :: bs).drop m) (body ++ (b :: bs).take m) reads
  | .trailer, buffer, body, reads =>
    if rfindSub crlfCrlf buffer = some 0 then .ok body
    else
      match reads with
      | [] => .err .unexpectedEof
      | r :: rs => runChunks .trailer (buffer ++ r) body rs
termination_by s buffer body reads => (reads.length, buffer.length, stateRank s)
decreasing_by
  · simp only [List.length_cons]
    exact Prod.Lex.left _ _ (by omega)
  · refine Prod.Lex.right _ (Prod.Lex.left _ _ ?_)
    have hb : crlfPos + 2 ≤ buffer.length := by
      have := findSub_add_le hf
      simpa [crlf] using this
    have hext : (buffer.take ((findByte 59 (buffer.take crlfPos)).getD crlfPos)) ≠ [] :=
      fromStrRadix16_ne_nil hp
    have hpos : 1 ≤ crlfPos := by
      by_contra hc
      push_neg at hc
      interval_cases crlfPos
      cases hfb : findByte 59 (buffer.take 0) with
      | none => rw [hfb] at hext; simp at hext
      | some j =>
        have := findByte_lt hfb
        simp at this
    simp only [List.length_drop]
    omega
  · refine Prod.Lex.right _ (Prod.Lex.left _ _ ?_)
    have hb : crlfPos + 2 ≤ buffer.length := by
      have := findSub_add_le hf
      simpa [crlf] using this
    simp only [List.length_drop, crlf, List.length_cons, List.length_nil]
    omega
  · exact Prod.Lex.right _ (Prod.Lex.right _ (by simp [stateRank]))
  · simp only [List.length_cons]
    exact Prod.Lex.left _ _ (by omega)
  · refine Prod.Lex.right _ (Prod.Lex.left _ _ ?_)
    simp only [List.length_drop, List.length_cons]
    omega
  · simp only [List.length_cons]
    exact Prod.Lex.left _ _ (by omega)

/-! ### Uniform unfolding lemmas for `runChunks` -/

theorem runChunks_chunkSize_unfold (buffer body : List Nat) (reads : List (List Nat)) :
    runChunks .chunkSize buffer body reads =
      match findSub crlf buffer with
      | none =>
        match reads with
        | [] => .err .unexpectedEof
        | r :: rs => runChunks .chunkSize (buffer ++ r) body rs
      | some crlfPos =>
        let ext := (findByte 59 (buffer.take crlfPos)).getD crlfPos
        match fromStrRadix16 (buffer.take ext) with
        | none => .err (.invalidChunkSize (buffer.take ext))
        | some 0 => runChunks .trailer (buffer.drop crlfPos) body reads
        | some (n + 1) =>
          runChunks (.chunkData (n + 1 + crlf.length)) (buffer.drop (crlfPos + crlf.length))
            body reads := by
  cases reads with
  | nil =>
    rw [runChunks.eq_1]
    cases hf : findSub crlf buffer with
    | none => simp only [hf]
    | some crlfPos =>
      simp only [hf]
      cases hp : fromStrRadix16
          (buffer.take ((findByte 59 (buffer.take crlfPos)).getD crlfPos)) with
      | none => simp only [hp]
      | some k => cases k <;> simp only [hp]
  | cons r rs =>
    rw [runChunks.eq_2]
    cases hf : findSub crlf buffer with
    | none => simp only [hf]
    | some crlfPos =>
      simp only [hf]
      cases hp : fromStrRadix16
          (buffer.take ((findByte 59 (buffer.take crlfPos)).getD crlfPos)) with
      | none => simp only [hp]
      | some k => cases k <;> simp only [hp]

theorem runChunks_chunkData_succ_unfold (k : Nat) (buffer body : List Nat)
    (reads : List (List Nat)) :
    runChunks (.chunkData (k + 1)) buffer body reads =
      match buffer with
      | [] =>
        match reads with
        | [] => .err .unexpectedEof
        | r :: rs => runChunks (.chunkData (k + 1)) r body rs
      | b :: bs =>
        let m := min ((b :: bs).length) (k + 1)
        runChunks (.chunkData (k + 1 - m)) ((b :: bs).drop m) (body ++ (b :: bs).take m)
          reads := by
  cases buffer with
  | nil => cases reads with
    | nil => rw [runChunks.eq_4]
    | cons r rs => rw [runChunks.eq_5]
  | cons b bs => rw [runChunks.eq_6]

theorem runChunks_trailer_unfold (buffer body : List Nat) (reads : List (List Nat)) :
    runChunks .trailer buffer body reads =
      if rfindSub crlfCrlf buffer = some 0 then .ok body
      else
        match reads with
        | [] => .err .unexpectedEof
        | r :: rs => runChunks .trailer (buffer ++ r) body rs := by
  cases reads with
  | nil =>
    rw [runChunks.eq_7]
  | cons r rs =>
    rw [runChunks.eq_8]

/-! ### Hexadecimal rendering used by the reference chunked encoder -/

/-- Lower-case hexadecimal digit byte for a value `d < 16`. -/
def hexChar (d : Nat) : Nat := if d < 10 then 48 + d else 87 + d

/-- Big-endian, minimal hexadecimal rendering of a natural number
(the chunk-size line a standards-conforming encoder emits). -/
def hexDigitsOf (n : Nat) : List Nat :=
  if _ : n < 16 then [hexChar n]
  else hexDigitsOf (n / 16) ++ [hexChar (n % 16)]
termination_by n
decreasing_by
  exact Nat.div_lt_self (by omega) (by omega)

theorem hexChar_range {d : Nat} (hd : d < 16) :
    (48 ≤ hexChar d ∧ hexChar d ≤ 57) ∨ (97 ≤ hexChar d ∧ hexChar d ≤ 102) := by
  unfold hexChar
  split <;> omega

theorem hexDigitVal_hexChar {d : Nat} (hd : d < 16) : hexDigitVal (hexChar d) = some d := by
  unfold hexChar hexDigitVal
  split_ifs <;> first
    | exact congrArg some (by omega)
    | (exfalso; omega)

theorem hexDigitsOf_range {n : Nat} :
    ∀ b ∈ hexDigitsOf n, (48 ≤ b ∧ b ≤ 57) ∨ (97 ≤ b ∧ b ≤ 102) := by
  induction n using hexDigitsOf.induct with
  | case1 n h =>
    rw [hexDigitsOf, dif_pos h]
    intro b hb
    simp only [List.mem_singleton] at hb
    subst hb
    exact hexChar_range h
  | case2 n h ih =>
    rw [hexDigitsOf, dif_neg h]
    intro b hb
    rcases List.mem_append.mp hb with hb | hb
    · exact ih b hb
    · simp only [List.mem_singleton] at hb
      subst hb
      exact hexChar_range (Nat.mod_lt _ (by omega))

theorem hexDigitsOf_ne_nil {n : Nat} : hexDigitsOf n ≠ [] := by
  rw [hexDigitsOf]
  split <;> simp

theorem hexAccum_append (l₁ l₂ : List Nat) (a : Nat) :
    hexAccum (l₁ ++ l₂) a = (hexAccum l₁ a).bind (hexAccum l₂) := by
  induction l₁ generalizing a with
  | nil => simp [hexAccum]
  | cons b rest ih =>
    simp only [List.cons_append, hexAccum]
    cases hexDigitVal b with
    | none => simp
    | some d => simp [ih]

theorem hexAccum_hexDigitsOf {n : Nat} :
    ∀ a, hexAccum (hexDigitsOf n) a = some (a * 16 ^ (hexDigitsOf n).length + n) := by
  induction n using hexDigitsOf.induct with
  | case1 n h =>
    intro a
    rw [hexDigitsOf, dif_pos h]
    simp [hexAccum, hexDigitVal_hexChar h]
    ring
  | case2 n h ih =>
    intro a
    rw [hexDigitsOf, dif_neg h]
    rw [hexAccum_append, ih a]
    have hmod : n % 16 < 16 := Nat.mod_lt n (by omega)
    simp only [Option.some_bind, hexAccum, hexDigitVal_hexChar hmod, Option.some.injEq,
      List.length_append, List.length_cons, List.length_nil]
    calc 16 * (a * 16 ^ (hexDigitsOf (n / 16)).length + n / 16) + n % 16
        = a * 16 ^ ((hexDigitsOf (n / 16)).length + 1) + (16 * (n / 16) + n % 16) := by
          rw [pow_succ]; ring
      _ = a * 16 ^ ((hexDigitsOf (n / 16)).length + 1) + n := by rw [Nat.div_add_mod]

theorem fromStrRadix16_hexDigitsOf {n : Nat} : fromStrRadix16 (hexDigitsOf n) = some n := by
  have hne := hexDigitsOf_ne_nil (n := n)
  have hrange := hexDigitsOf_range (n := n)
  have hparse : hexParseAll (hexDigitsOf n) = some n := by
    rw [hexParseAll, if_neg hne, hexAccum_hexDigitsOf 0]
    simp
  cases hd : hexDigitsOf n with
  | nil => exact absurd hd hne
  | cons b rest =>
    have hb : b ≠ 43 := by
      have := hrange b (by rw [hd]; simp)
      omega
    rw [hd] at hparse
    rw [fromStrRadix16.eq_2 _ (by intro r h; injection h with hb' _; exact absurd hb' hb)]
    exact hparse

/-! ### Locating the chunk-size line inside a well-formed chunk -/

theorem findSub_crlf_boundary {l : List Nat} (h : 13 ∉ l) (r : List Nat) :
    findSub crlf (l ++ 13 :: 10 :: r) = some l.length := by
  induction l with
  | nil =>
    simp [findSub, crlf, CR, LF, List.isPrefixOf]
  | cons a as ih =>
    have ha : a ≠ 13 := fun hc => h (by simp [hc])
    have hbeq : (13 == a) = false := beq_eq_false_iff_ne.mpr (Ne.symm ha)
    have hpre : crlf.isPrefixOf (a :: (as ++ 13 :: 10 :: r)) = false := by
      simp [crlf, CR, LF, List.isPrefixOf, hbeq]
    simp only [List.cons_append, findSub, hpre, Bool.false_eq_true, if_false,
      List.append_eq]
    rw [ih (fun hc => h (by simp [hc]))]
    simp

theorem findByte_eq_none {c : Nat} {l : List Nat} (h : c ∉ l) : findByte c l = none := by
  induction l with
  | nil => rfl
  | cons b rest ih =>
    have hb : b ≠ c := fun hc => h (by simp [hc])
    simp only [findByte, hb, if_false]
    rw [ih (fun hc => h (by simp [hc]))]
    rfl

theorem findByte_boundary {c : Nat} {l : List Nat} (h : c ∉ l) (r : List Nat) :
    findByte c (l ++ c :: r) = some l.length := by
  induction l with
  | nil => simp [findByte]
  | cons b rest ih =>
    have hb : b ≠ c := fun hc => h (by simp [hc])
    simp only [List.cons_append, findByte, hb, if_false, List.append_eq]
    rw [ih (fun hc => h (by simp [hc]))]
    simp

/-- Well-formedness of the chunk-extension bytes a reference encoder may put
between the chunk-size digits and the line-terminating CRLF: either absent or
introduced by `;`, and free of CR/LF bytes. -/
def ExtOk (ext : List Nat) : Prop :=
  (ext = [] ∨ ext.head? = some 59) ∧ ∀ b ∈ ext, b ≠ 13 ∧ b ≠ 10

instance : DecidablePred ExtOk := fun ext => by
  unfold ExtOk
  infer_instance

/-! ### Symbolic single-step lemmas for the decoder -/

theorem runChunks_size_pos {buffer body : List Nat} {reads : List (List Nat)}
    {n crlfPos dPos : Nat}
    (h1 : findSub crlf buffer = some crlfPos)
    (h2 : (findByte 59 (buffer.take crlfPos)).getD crlfPos = dPos)
    (h3 : fromStrRadix16 (buffer.take dPos) = some (n + 1)) :
    runChunks .chunkSize buffer body reads
      = runChunks (.chunkData (n + 1 + 2)) (buffer.drop (crlfPos + 2)) body reads := by
  rw [runChunks_chunkSize_unfold, h1]
  simp only [h2, crlf, CR, LF, List.length_cons, List.length_nil]
  rw [h3]

theorem runChunks_size_zero {buffer body : List Nat} {reads : List (List Nat)}
    {crlfPos dPos : Nat}
    (h1 : findSub crlf buffer = some crlfPos)
    (h2 : (findByte 59 (buffer.take crlfPos)).getD crlfPos = dPos)
    (h3 : fromStrRadix16 (buffer.take dPos) = some 0) :
    runChunks .chunkSize buffer body reads
      = runChunks .trailer (buffer.drop crlfPos) body reads := by
  rw [runChunks_chunkSize_unfold, h1]
  simp only [h2, crlf, CR, LF, List.length_cons, List.length_nil]
  rw [h3]

theorem runChunks_trailer_done {buffer body : List Nat} {reads : List (List Nat)}
    (h : rfindSub crlfCrlf buffer = some 0) :
    runChunks .trailer buffer body reads = .ok body := by
  rw [runChunks_trailer_unfold, if_pos h]

/-- One well-formed chunk (with arbitrary two-byte data terminator `t`) is
consumed whole by the decoder: the chunk data lands in the decoded body and
the size line, extension and terminator are discarded. -/
theorem chunkStep (size : Nat) (data ext t rest body : List Nat) (reads : List (List Nat))
    (hsize : 0 < size) (hdata : data.length = size) (ht : t.length = 2) (hext : ExtOk ext) :
    runChunks .chunkSize (hexDigitsOf size ++ ext ++ crlf ++ data ++ t ++ rest) body reads
      = runChunks .chunkSize rest (body ++ data) reads := by
  obtain ⟨n, rfl⟩ : ∃ n, size = n + 1 := ⟨size - 1, by omega⟩
  have hD : ∀ b ∈ hexDigitsOf (n + 1), b ≠ 13 ∧ b ≠ 10 ∧ b ≠ 59 := by
    intro b hb
    have := hexDigitsOf_range b hb
    omega
  have h13 : 13 ∉ hexDigitsOf (n + 1) ++ ext := by
    intro hc
    rcases List.mem_append.mp hc with hc | hc
    · exact (hD 13 hc).1 rfl
    · exact (hext.2 13 hc).1 rfl
  have hB : hexDigitsOf (n + 1) ++ ext ++ crlf ++ data ++ t ++ rest
      = (hexDigitsOf (n + 1) ++ ext) ++ 13 :: 10 :: (data ++ t ++ rest) := by
    simp [crlf, CR, LF]
  rw [hB]
  set P : List Nat := hexDigitsOf (n + 1) ++ ext with hP
  set B : List Nat := P ++ 13 :: 10 :: (data ++ t ++ rest) with hBdef
  have h1 : findSub crlf B = some P.length := findSub_crlf_boundary h13 _
  have htake : B.take P.length = P := by
    rw [hBdef]
    exact List.take_left P _
  have h2 : (findByte 59 (B.take P.length)).getD P.length = (hexDigitsOf (n + 1)).length := by
    rw [htake, hP]
    rcases hext.1 with hnil | hhead
    · subst hnil
      rw [List.append_nil]
      rw [findByte_eq_none (fun hc => (hD 59 hc).2.2 rfl)]
      simp
    · cases ext with
      | nil => simp at hhead
      | cons e es =>
        simp only [List.head?_cons, Option.some.injEq] at hhead
        subst hhead
        rw [findByte_boundary (fun hc => (hD 59 hc).2.2 rfl)]
        rfl
  have htakeD : B.take (hexDigitsOf (n + 1)).length = hexDigitsOf (n + 1) := by
    rw [hBdef, hP]
    rw [List.append_assoc]
    exact List.take_left _ _
  have h3 : fromStrRadix16 (B.take (hexDigitsOf (n + 1)).length) = some (n + 1) := by
    rw [htakeD]
    exact fromStrRadix16_hexDigitsOf
  rw [runChunks_size_pos h1 h2 h3]
  have hdrop : B.drop (P.length + 2) = data ++ t ++ rest := by
    have : B = (P ++ [13, 10]) ++ (data ++ t ++ rest) := by
      rw [hBdef]
      simp
    rw [this]
    have hlen : (P ++ [13, 10]).length = P.length + 2 := by simp
    rw [← hlen]
    exact List.drop_left _ _
  rw [hdrop]
  have hcons : ∃ d ds, data = d :: ds := by
    cases data with
    | nil => exact absurd hdata (by simp)
    | cons d ds => exact ⟨d, ds, rfl⟩
  obtain ⟨d, ds, rfl⟩ := hcons
  have hds : ds.length + 1 = n + 1 := by simpa using hdata
  have hidx : n + 1 + 2 = (n + 2) + 1 := by omega
  rw [hidx, runChunks_chunkData_succ_unfold]
  simp only [List.cons_append]
  have hlen : (d :: (ds ++ t ++ rest)).length = (n + 3) + rest.length := by
    simp only [List.length_cons, List.length_append]
    omega
  have hmin : (d :: (ds ++ t ++ rest)).length ⊓ ((n + 2) + 1) = n + 3 := by
    omega
  simp only [hmin]
  have hidx0 : (n + 2) + 1 - (n + 3) = 0 := by omega
  have hshape : d :: (ds ++ t ++ rest) = ((d :: ds) ++ t) ++ rest := by simp
  have hdlen : ((d :: ds) ++ t).length = n + 3 := by
    simp only [List.length_append, List.length_cons]
    omega
  have hdrop3 : (d :: (ds ++ t ++ rest)).drop (n + 3) = rest := by
    rw [hshape]
    exact List.drop_left' hdlen
  have htake3 : (d :: (ds ++ t ++ rest)).take (n + 3) = (d :: ds) ++ t := by
    rw [hshape]
    exact List.take_left' hdlen
  rw [hidx0, hdrop3, htake3]
  rw [runChunks.eq_3]
  have hblen : 2 ≤ (body ++ ((d :: ds) ++ t)).length := by
    simp only [List.length_append]
    omega
  rw [if_pos hblen]
  have hbody : (body ++ ((d :: ds) ++ t)).take
      ((body ++ ((d :: ds) ++ t)).length - crlf.length) = body ++ d :: ds := by
    have hshape2 : body ++ ((d :: ds) ++ t) = (body ++ d :: ds) ++ t := by simp
    have hlen2 : (body ++ ((d :: ds) ++ t)).length - crlf.length
        = (body ++ d :: ds).length := by
      simp only [List.length_append, List.length_cons, crlf, CR, LF, List.length_nil]
      omega
    rw [hlen2, hshape2]
    exact List.take_left _ _
  rw [hbody]

theorem hexDigitsOf_zero : hexDigitsOf 0 = [48] := by
  rw [hexDigitsOf]
  norm_num [hexChar]

/-- The `0\r\n\r\n` terminator: the decoder parses the zero-size chunk, moves
to the trailer state, finds CRLF-CRLF at offset 0 and emits the body. -/
theorem chunkFinish (body : List Nat) (reads : List (List Nat)) :
    runChunks .chunkSize ([48] ++ crlf ++ crlf) body reads = .ok body := by
  have h48 : ([48] ++ crlf ++ crlf : List Nat) = [48, 13, 10, 13, 10] := by
    simp [crlf, CR, LF]
  rw [h48]
  have h1 : findSub crlf [48, 13, 10, 13, 10] = some 1 := by decide
  have h2 : (findByte 59 (([48, 13, 10, 13, 10] : List Nat).take 1)).getD 1 = 1 := by decide
  have h3 : fromStrRadix16 (([48, 13, 10, 13, 10] : List Nat).take 1) = some 0 := by decide
  rw [runChunks_size_zero h1 h2 h3]
  exact runChunks_trailer_done (by decide)

/-! ### Reference chunked encoders (spec §8, quantified invariant 1) -/

/-- One encoded chunk whose chunk-data terminator is an arbitrary two-byte
sequence `c.2.2` (the well-formed coding uses CRLF): size in hex, optional
extension, CRLF, the data, then the terminator bytes. -/
def encodeChunkT (c : List Nat × List Nat × List Nat) : List Nat :=
  hexDigitsOf c.1.length ++ c.2.1 ++ crlf ++ c.1 ++ c.2.2

/-- A whole encoded stream with per-chunk terminators, ending with the
zero-size chunk and the final CRLF CRLF. -/
def encodeChunkedT (chunks : List (List Nat × List Nat × List Nat)) : List Nat :=
  (chunks.map encodeChunkT).flatten ++ hexDigitsOf 0 ++ crlf ++ crlf

/-- One encoded chunk of the well-formed (CRLF-terminated) coding, with an
optional chunk extension after the size digits. -/
def encodeChunk (c : List Nat × List Nat) : List Nat :=
  hexDigitsOf c.1.length ++ c.2 ++ crlf ++ c.1 ++ crlf

/-- A well-formed encoded chunked stream: the encoded chunks followed by the
zero-size chunk and the final CRLF CRLF. -/
def encodeChunked (chunks : List (List Nat × List Nat)) : List Nat :=
  (chunks.map encodeChunk).flatten ++ hexDigitsOf 0 ++ crlf ++ crlf

theorem encodeChunked_eq_T (chunks : List (List Nat × List Nat)) :
    encodeChunked chunks = encodeChunkedT (chunks.map fun c => (c.1, c.2, crlf)) := by
  have hpt : ∀ c : List Nat × List Nat, encodeChunkT (c.1, c.2, crlf) = encodeChunk c :=
    fun c => rfl
  simp [encodeChunked, encodeChunkedT, List.map_map, Function.comp_def, hpt]

theorem runChunks_encodeChunkedT (chunks : List (List Nat × List Nat × List Nat)) :
    ∀ body reads, (∀ c ∈ chunks, c.1 ≠ [] ∧ ExtOk c.2.1 ∧ c.2.2.length = 2) →
    runChunks .chunkSize (encodeChunkedT chunks) body reads
      = .ok (body ++ (chunks.map fun c => c.1).flatten) := by
  induction chunks with
  | nil =>
    intro body reads _
    have h0 : encodeChunkedT [] = [48] ++ crlf ++ crlf := by
      simp [encodeChunkedT, hexDigitsOf_zero]
    rw [h0, chunkFinish]
    simp
  | cons c cs ih =>
    intro body reads h
    have hc := h c (by simp)
    have hsplit : encodeChunkedT (c :: cs)
        = hexDigitsOf c.1.length ++ c.2.1 ++ crlf ++ c.1 ++ c.2.2 ++ encodeChunkedT cs := by
      simp [encodeChunkedT, encodeChunkT, List.append_assoc]
    rw [hsplit,
      chunkStep c.1.length c.1 c.2.1 c.2.2 _ body reads
        (List.length_pos.mpr hc.1) rfl hc.2.2 hc.2.1,
      ih (body ++ c.1) reads (fun x hx => h x (by simp [hx]))]
    simp

/-- C4. For every stream produced by the reference chunked encoder — any
list of non-empty chunks, each with an optional well-formed chunk
extension — the decoder (`ReadStreamChunks::resume` driven to completion)
returns exactly the concatenation of the chunk data: decode ∘ encode = id,
and chunk extensions after `;` are discarded without affecting the output. -/
theorem decode_encode_roundtrip (chunks : List (List Nat × List Nat))
    (h : ∀ c ∈ chunks, c.1 ≠ [] ∧ ExtOk c.2) :
    runChunks .chunkSize (encodeChunked chunks) [] []
      = .ok (chunks.map fun c => c.1).flatten := by
  rw [encodeChunked_eq_T,
    runChunks_encodeChunkedT _ [] []
      (by
        intro c hc
        simp only [List.mem_map] at hc
        obtain ⟨a, ha, rfl⟩ := hc
        exact ⟨(h a ha).1, (h a ha).2, by simp [crlf]⟩)]
  simp [List.map_map, Function.comp_def]

/-- Witness for C4: decoding `"5;a=b\r\nhello\r\n0\r\n\r\n"` yields
`"hello"` — the chunk extension `;a=b` is discarded. -/
theorem decode_encode_roundtrip_witness :
    (∀ c ∈ [(([104, 101, 108, 108, 111] : List Nat), ([59, 97, 61, 98] : List Nat))],
        c.1 ≠ [] ∧ ExtOk c.2)
    ∧ runChunks .chunkSize
        (encodeChunked [([104, 101, 108, 108, 111], [59, 97, 61, 98])]) [] []
        = .ok ([([104, 101, 108, 108, 111], [59, 97, 61, 98])].map fun c => c.1).flatten :=
  ⟨by decide, decode_encode_roundtrip _ (by decide)⟩

/-- C10. The decoder never validates the two bytes terminating a chunk's
data: replacing each chunk-terminating CRLF by two arbitrary bytes leaves
decoding successful with the same body as the well-formed stream. -/
theorem chunk_terminator_ignored (chunks : List (List Nat × List Nat × List Nat))
    (h : ∀ c ∈ chunks, c.1 ≠ [] ∧ ExtOk c.2.1 ∧ c.2.2.length = 2) :
    runChunks .chunkSize (encodeChunkedT chunks) [] []
        = .ok (chunks.map fun c => c.1).flatten
    ∧ runChunks .chunkSize (encodeChunkedT chunks) [] []
        = runChunks .chunkSize (encodeChunked (chunks.map fun c => (c.1, c.2.1))) [] [] := by
  have h1 := runChunks_encodeChunkedT chunks [] [] h
  have h2 : runChunks .chunkSize (encodeChunked (chunks.map fun c => (c.1, c.2.1))) [] []
      = .ok (chunks.map fun c => c.1).flatten := by
    rw [encodeChunked_eq_T,
      runChunks_encodeChunkedT _ [] []
        (by
          intro c hc
          simp only [List.map_map, List.mem_map] at hc
          obtain ⟨a, ha, rfl⟩ := hc
          exact ⟨(h a ha).1, (h a ha).2.1, by simp [crlf]⟩)]
    simp [List.map_map, Function.comp_def]
  simp only [List.nil_append] at h1
  exact ⟨h1, by rw [h1, h2]⟩

/-- Two chunks `hel` / `␣world` whose chunk-data terminators are the
arbitrary byte pairs `XY` and `AB` instead of CRLF. -/
def corruptSample : List (List Nat × List Nat × List Nat) :=
  [([104, 101, 108], [], [88, 89]), ([32, 119, 111, 114, 108, 100], [], [65, 66])]

/-- Witness for C10: streams with corrupted chunk terminators decode to the
same body as the well-formed stream. -/
theorem chunk_terminator_ignored_witness :
    (∀ c ∈ corruptSample, c.1 ≠ [] ∧ ExtOk c.2.1 ∧ c.2.2.length = 2)
    ∧ (runChunks .chunkSize (encodeChunkedT corruptSample) [] []
          = .ok (corruptSample.map fun c => c.1).flatten
        ∧ runChunks .chunkSize (encodeChunkedT corruptSample) [] []
          = runChunks .chunkSize
              (encodeChunked (corruptSample.map fun c => (c.1, c.2.1))) [] []) :=
  ⟨by decide, chunk_terminator_ignored corruptSample (by decide)⟩

/-- C2 (code-bug evidence). On the stream
`"5\r\nhello\r\n0\r\nx: y\r\n\r\n"` — a chunked body whose trailer section
contains the single field `x: y` — the decoder never finds CRLF-CRLF as the
*last* occurrence at offset 0 of its accumulator, keeps reading, and fails
with `UnexpectedEof` at end of stream; the same stream without the trailer
field decodes to `"hello"`. -/
theorem trailer_fields_cause_eof :
    runChunks .chunkSize
        [53, 13, 10, 104, 101, 108, 108, 111, 13, 10, 48, 13, 10,
          120, 58, 32, 121, 13, 10, 13, 10] [] [] = .err .unexpectedEof
    ∧ runChunks .chunkSize
        [53, 13, 10, 104, 101, 108, 108, 111, 13, 10, 48, 13, 10, 13, 10] [] []
        = .ok [104, 101, 108, 108, 111] := by
  constructor <;>
    simp [runChunks, findSub, findByte, fromStrRadix16, hexParseAll, hexAccum,
      hexDigitVal, rfindSub, crlf, crlfCrlf, CR, LF, List.isPrefixOf]

/-! ### The decoded-body accumulator never underflows (C9) -/

/-- Invariant tying the decoder state to the decoded body: in `ChunkData n`,
the bytes already moved to the body plus the bytes still owed amount to at
least `chunk_size + 2 ≥ 3`. -/
def chunkSafe (s : ChunkState) (body : List Nat) : Prop :=
  ∀ k, s = .chunkData k → 3 ≤ body.length + k

theorem chunkSafe_chunkSize (body : List Nat) : chunkSafe .chunkSize body := by
  intro k hk
  exact absurd hk (by simp)

theorem chunkSafe_trailer (body : List Nat) : chunkSafe .trailer body := by
  intro k hk
  exact absurd hk (by simp)

theorem runChunks_ne_panicked (s : ChunkState) (buffer body : List Nat)
    (reads : List (List Nat)) :
    chunkSafe s body → runChunks s buffer body reads ≠ .panicked := by
  have hcrlf : crlf.length = 2 := rfl
  induction s, buffer, body, reads using runChunks.induct with
  | case1 buffer body hf =>
    intro _
    rw [runChunks_chunkSize_unfold, hf]
    simp
  | case2 buffer body hf r rs ih =>
    intro _
    rw [runChunks_chunkSize_unfold, hf]
    simpa using ih (chunkSafe_chunkSize _)
  | case3 buffer body reads crlfPos hf ext hp =>
    intro _
    rw [runChunks_chunkSize_unfold, hf]
    have hext : ext = (findByte 59 (List.take crlfPos buffer)).getD crlfPos := rfl
    rw [hext] at hp
    simp [hp]
  | case4 buffer body reads crlfPos hf ext hp ih =>
    intro _
    rw [runChunks_chunkSize_unfold, hf]
    have hext : ext = (findByte 59 (List.take crlfPos buffer)).getD crlfPos := rfl
    rw [hext] at hp
    simp only [hp]
    simpa using ih (chunkSafe_trailer _)
  | case5 buffer body reads crlfPos hf ext n hp ih =>
    intro _
    rw [runChunks_chunkSize_unfold, hf]
    have hext : ext = (findByte 59 (List.take crlfPos buffer)).getD crlfPos := rfl
    rw [hext] at hp
    simp only [hp]
    refine ih ?_
    intro k hk
    injection hk with hk
    omega
  | case6 buffer body reads hle ih =>
    intro _
    rw [runChunks.eq_3, if_pos hle]
    exact ih (chunkSafe_chunkSize _)
  | case7 buffer body reads hle =>
    intro hs
    exact absurd (hs 0 rfl) (by omega)
  | case8 k body =>
    intro _
    rw [runChunks.eq_4]
    simp
  | case9 k body r rs ih =>
    intro hs
    rw [runChunks.eq_5]
    exact ih hs
  | case10 k body reads b rest m ih =>
    intro hs
    rw [runChunks.eq_6]
    have hmval : m = (b :: rest).length ⊓ (k + 1) := rfl
    refine ih ?_
    intro j hj
    injection hj with hj
    have hm := hs (k + 1) rfl
    have hlen : (body ++ (b :: rest).take m).length
        = body.length + ((b :: rest).length ⊓ m) := by
      simp only [List.length_append, List.length_take, List.length_cons]
      omega
    omega
  | case11 buffer body reads hfound =>
    intro _
    rw [runChunks_trailer_unfold, if_pos hfound]
    simp
  | case12 buffer body hnf =>
    intro _
    rw [runChunks_trailer_unfold, if_neg hnf]
    simp
  | case13 buffer body hnf r rs ih =>
    intro _
    rw [runChunks_trailer_unfold, if_neg hnf]
    simpa using ih (chunkSafe_trailer _)

/-- C9. Whatever raw bytes arrive (pre-buffered or through any partitioning
of reads), a decoder started in its initial state never reaches the
`ChunkData(0)` body truncation with fewer than 2 decoded bytes: the Rust
drain `self.body.drain(self.body.len() - CRLF.len()..)` cannot underflow. -/
theorem chunk_data_drain_safe (buffer : List Nat) (reads : List (List Nat)) :
    runChunks .chunkSize buffer [] reads ≠ .panicked :=
  runChunks_ne_panicked _ _ _ _ (chunkSafe_chunkSize _)

/-! ### Request serialization (`SendHttp`, `State::Serialize`, send.rs) -/

/-- ASCII bytes of a string (all strings involved here are ASCII). -/
def strBytes (s : String) : List Nat := s.toList.map Char.toNat

theorem strBytes_inj {s t : String} (h : strBytes s = strBytes t) : s = t := by
  have hinj : Function.Injective Char.toNat := fun a b hab =>
    Char.ext (UInt32.ext hab)
  exact String.toList_inj.mp (List.map_injective_iff.mpr hinj h)

/-- `http::Version`; the request line renders it via `format!("{:?}", _)`,
whose Debug form is `HTTP/1.0` / `HTTP/1.1`. -/
inductive HttpVersion
  | http10
  | http11
deriving DecidableEq, Repr

/-- Debug rendering of the version. -/
def versionBytes : HttpVersion → List Nat
  | .http10 => strBytes "HTTP/1.0"
  | .http11 => strBytes "HTTP/1.1"

/-- `http::Uri` split into components: `uri.path()` yields only the path,
the query being a separate component of `path_and_query`. -/
structure UriModel where
  scheme : Option String
  authority : Option String
  path : String
  query : Option String
deriving DecidableEq, Repr

/-- The origin-form target: path followed by `?query` when present. -/
def pathAndQueryBytes (u : UriModel) : List Nat :=
  strBytes u.path ++ (match u.query with | some q => 63 :: strBytes q | none => [])

/-- `http::Request<Vec<u8>>`. Header names are kept lowercase, mirroring
`http::HeaderName`'s normalization, so the `key == CONTENT_LENGTH`
comparison of the source is name equality with `"content-length"`. -/
structure RequestModel where
  method : String
  uri : UriModel
  version : HttpVersion
  headers : List (String × List Nat)
  body : List Nat

/-- One serialized header line `name: value CRLF` (send.rs lines 167-170). -/
def headerLineBytes (kv : String × List Nat) : List Nat :=
  strBytes kv.1 ++ [58, 32] ++ kv.2 ++ crlf

/-- The request line exactly as `State::Serialize` builds it (send.rs lines
153-158): note `self.request.uri().path()` — only the path, never the
query. -/
def requestLineBytes (r : RequestModel) : List Nat :=
  strBytes r.method ++ [32] ++ strBytes r.uri.path ++ [32]
    ++ versionBytes r.version ++ crlf

/-- `body.len().to_string()` as bytes. -/
def natDecBytes (n : Nat) : List Nat := strBytes (toString n)

/-- The regenerated `Content-Length` line (`CONTENT_LENGTH.as_str()` is the
lowercase `"content-length"`). -/
def contentLengthLine (n : Nat) : List Nat :=
  strBytes "content-length" ++ [58, 32] ++ natDecBytes n ++ crlf

/-- `State::Serialize` (send.rs lines 150-178): request line, caller headers
with every `Content-Length` skipped, regenerated `Content-Length`, blank
line, body. -/
def serializeRequest (r : RequestModel) : List Nat :=
  requestLineBytes r
    ++ ((r.headers.filter fun kv => kv.1 != "content-length").map headerLineBytes).flatten
    ++ strBytes "content-length" ++ [58, 32] ++ natDecBytes r.body.length ++ crlfCrlf
    ++ r.body

/-- The header lines of the serialized request, in emission order. -/
def wireHeaderLines (r : RequestModel) : List (List Nat) :=
  (r.headers.filter fun kv => kv.1 != "content-length").map headerLineBytes
    ++ [contentLengthLine r.body.length]

theorem serializeRequest_decomp (r : RequestModel) :
    serializeRequest r
      = requestLineBytes r ++ (wireHeaderLines r).flatten ++ crlf ++ r.body := by
  simp [serializeRequest, wireHeaderLines, contentLengthLine, crlfCrlf, crlf, CR, LF]

/-- A GET request for `/search?q=1` (origin-form URI with a query). -/
def queryRequest : RequestModel where
  method := "GET"
  uri := { scheme := none, authority := none, path := "/search", query := some "q=1" }
  version := .http11
  headers := []
  body := []

/-- C3 (code-bug evidence). For the request targeting `/search?q=1`,
`State::Serialize` emits the request line `GET /search HTTP/1.1` — the
query is dropped because the source serializes `uri().path()` instead of
the full path-and-query, so the produced bytes differ from the origin-form
request line the spec requires. -/
theorem request_line_drops_query :
    serializeRequest queryRequest
        = strBytes "GET /search HTTP/1.1\r\ncontent-length: 0\r\n\r\n"
    ∧ requestLineBytes queryRequest
        ≠ strBytes "GET " ++ pathAndQueryBytes queryRequest.uri
            ++ strBytes " HTTP/1.1\r\n" := by
  constructor
  · decide
  · decide

theorem isPrefixOf_append_self (l r : List Nat) : l.isPrefixOf (l ++ r) = true := by
  induction l with
  | nil => simp [List.isPrefixOf]
  | cons a as ih => simp [List.isPrefixOf, ih]

/-- If a byte `c` occurs in neither `a` nor `b`, a prefix relation between
`a ++ c :: r₁` and `b ++ c :: r₂` forces `a = b`: the first occurrence of
`c` delimits both. -/
theorem prefixOf_token_eq {c : Nat} :
    ∀ {a b : List Nat} {r₁ r₂ : List Nat}, c ∉ a → c ∉ b →
      (a ++ c :: r₁).isPrefixOf (b ++ c :: r₂) = true → a = b := by
  intro a
  induction a with
  | nil =>
    intro b r₁ r₂ _ hb h
    cases b with
    | nil => rfl
    | cons x b' =>
      exfalso
      simp only [List.nil_append, List.cons_append, List.isPrefixOf,
        Bool.and_eq_true, beq_iff_eq] at h
      exact hb (by simp [h.1])
  | cons y a' ih =>
    intro b r₁ r₂ ha hb h
    cases b with
    | nil =>
      exfalso
      simp only [List.cons_append, List.nil_append, List.isPrefixOf,
        Bool.and_eq_true, beq_iff_eq] at h
      exact ha (by simp [h.1])
    | cons x b' =>
      simp only [List.cons_append, List.isPrefixOf, Bool.and_eq_true,
        beq_iff_eq] at h
      have := ih (fun hc => ha (by simp [hc])) (fun hc => hb (by simp [hc])) h.2
      rw [h.1, this]

/-- A non-`content-length` header line never starts with `content-length:`
when the header name contains no colon byte. -/
theorem headerLine_not_cl {nm : String} {v : List Nat}
    (hneq : nm ≠ "content-length") (hcolon : (58 : Nat) ∉ strBytes nm) :
    (strBytes "content-length" ++ [58]).isPrefixOf
        (strBytes nm ++ [58, 32] ++ v ++ crlf) = false := by
  by_contra hc
  rw [Bool.not_eq_false] at hc
  have hshape : strBytes nm ++ [58, 32] ++ v ++ crlf
      = strBytes nm ++ 58 :: (32 :: (v ++ crlf)) := by simp
  rw [hshape] at hc
  have hpat : strBytes "content-length" ++ [58]
      = strBytes "content-length" ++ 58 :: ([] : List Nat) := rfl
  rw [hpat] at hc
  have := prefixOf_token_eq (by decide) hcolon hc
  exact hneq (strBytes_inj this).symm

/-- C5. For every request whose header names are colon-free tokens, the
serialized bytes are the request line, the header lines, a blank line and
the body — and among the header lines exactly one carries the
`content-length` name; it is the regenerated one, placed last, with value
`body.length`. Caller-supplied `Content-Length` headers are all skipped. -/
theorem content_length_recomputed (r : RequestModel)
    (hnames : ∀ kv ∈ r.headers, (58 : Nat) ∉ strBytes kv.1) :
    serializeRequest r
        = requestLineBytes r ++ (wireHeaderLines r).flatten ++ crlf ++ r.body
    ∧ (wireHeaderLines r).countP
        (fun l => (strBytes "content-length" ++ [58]).isPrefixOf l) = 1
    ∧ (wireHeaderLines r).getLast? = some (contentLengthLine r.body.length)
    ∧ contentLengthLine r.body.length
        = strBytes "content-length" ++ [58, 32] ++ natDecBytes r.body.length ++ crlf := by
  refine ⟨serializeRequest_decomp r, ?_, ?_, rfl⟩
  · rw [wireHeaderLines, List.countP_append]
    have hzero : ((r.headers.filter fun kv => kv.1 != "content-length").map
        headerLineBytes).countP
        (fun l => (strBytes "content-length" ++ [58]).isPrefixOf l) = 0 := by
      rw [List.countP_eq_zero]
      intro l hl
      simp only [List.mem_map, List.mem_filter, bne_iff_ne, ne_eq] at hl
      obtain ⟨kv, ⟨hkv, hne⟩, rfl⟩ := hl
      rw [headerLineBytes]
      simp only [Bool.not_eq_true]
      exact headerLine_not_cl hne (hnames kv hkv)
    rw [hzero]
    have hone : (strBytes "content-length" ++ [58]).isPrefixOf
        (contentLengthLine r.body.length) = true := by
      rw [contentLengthLine]
      have hshape : strBytes "content-length" ++ [58, 32]
            ++ natDecBytes r.body.length ++ crlf
          = (strBytes "content-length" ++ [58])
            ++ (32 :: (natDecBytes r.body.length ++ crlf)) := by simp
      rw [hshape]
      exact isPrefixOf_append_self _ _
    simp [hone]
  · rw [wireHeaderLines]
    simp

/-- Witness for C5: a POST request carrying a caller-supplied
`Content-Length: 999` header and a `host` header, with a 2-byte body. -/
theorem content_length_recomputed_witness :
    (∀ kv ∈ (RequestModel.mk "POST"
        (UriModel.mk none none "/u" none) .http11
        [("host", strBytes "x"), ("content-length", strBytes "999")]
        [104, 105]).headers, (58 : Nat) ∉ strBytes kv.1)
    ∧ (serializeRequest (RequestModel.mk "POST"
          (UriModel.mk none none "/u" none) .http11
          [("host", strBytes "x"), ("content-length", strBytes "999")]
          [104, 105])
        = requestLineBytes (RequestModel.mk "POST"
            (UriModel.mk none none "/u" none) .http11
            [("host", strBytes "x"), ("content-length", strBytes "999")]
            [104, 105])
          ++ (wireHeaderLines (RequestModel.mk "POST"
              (UriModel.mk none none "/u" none) .http11
              [("host", strBytes "x"), ("content-length", strBytes "999")]
              [104, 105])).flatten ++ crlf
          ++ (RequestModel.mk "POST"
              (UriModel.mk none none "/u" none) .http11
              [("host", strBytes "x"), ("content-length", strBytes "999")]
              [104, 105]).body
      ∧ (wireHeaderLines (RequestModel.mk "POST"
            (UriModel.mk none none "/u" none) .http11
            [("host", strBytes "x"), ("content-length", strBytes "999")]
            [104, 105])).countP
          (fun l => (strBytes "content-length" ++ [58]).isPrefixOf l) = 1
      ∧ (wireHeaderLines (RequestModel.mk "POST"
            (UriModel.mk none none "/u" none) .http11
            [("host", strBytes "x"), ("content-length", strBytes "999")]
            [104, 105])).getLast?
          = some (contentLengthLine (RequestModel.mk "POST"
              (UriModel.mk none none "/u" none) .http11
              [("host", strBytes "x"), ("content-length", strBytes "999")]
              [104, 105]).body.length)
      ∧ contentLengthLine (RequestModel.mk "POST"
            (UriModel.mk none none "/u" none) .http11
            [("host", strBytes "x"), ("content-length", strBytes "999")]
            [104, 105]).body.length
          = strBytes "content-length" ++ [58, 32]
            ++ natDecBytes (RequestModel.mk "POST"
                (UriModel.mk none none "/u" none) .http11
                [("host", strBytes "x"), ("content-length", strBytes "999")]
                [104, 105]).body.length ++ crlf) :=
  ⟨by decide, content_length_recomputed _ (by decide)⟩

/-! ### Post-header dispatch and keep-alive (`State::ReceiveHeaders`) -/

/-- `HeaderMap::get`: the first header whose (lowercase) name matches. -/
def getHeader (nm : String) (hs : List (String × List Nat)) : Option (List Nat) :=
  (hs.find? fun kv => kv.1 == nm).map fun kv => kv.2

/-- Value of an ASCII decimal digit byte. -/
def decDigitVal (b : Nat) : Option Nat :=
  if 48 ≤ b ∧ b ≤ 57 then some (b - 48) else none

/-- Left fold accumulating decimal digits. -/
def decAccum : List Nat → Nat → Option Nat
  | [], acc => some acc
  | b :: rest, acc =>
    match decDigitVal b with
    | none => none
    | some d => decAccum rest (10 * acc + d)

/-- Parse a non-empty run of decimal digits. -/
def decParseAll (l : List Nat) : Option Nat :=
  if l = [] then none else decAccum l 0

/-- `usize::from_str_radix(s, 10)`: optional leading `+`, then digits. -/
def fromStrRadix10 (l : List Nat) : Option Nat :=
  match l with
  | 43 :: rest => decParseAll rest
  | _ => decParseAll l

/-- `HeaderValue::to_str` succeeds only on visible-ASCII bytes (and space). -/
def visibleAscii (b : Nat) : Bool := 32 ≤ b && b ≤ 126

/-- Modelled from the spec: the `ReadStreamExact(N)` sub-coroutine of the
sibling io-stream library (§6.1), absent from this repository — it has an
`extend` seeder and terminates once exactly `N` bytes are accumulated;
exhausting the stream first is an EOF failure. -/
def readExactRun (n : Nat) : List Nat → List (List Nat) → Option (List Nat)
  | seed, [] => if n ≤ seed.length then some (seed.take n) else none
  | seed, r :: rs =>
    if n ≤ seed.length then some (seed.take n) else readExactRun n (seed ++ r) rs

/-- Modelled from the spec: the `ReadStreamToEnd` sub-coroutine of the
sibling io-stream library (§6.1), absent from this repository — it returns
its seed plus everything read up to EOF. -/
def readToEndRun (seed : List Nat) (reads : List (List Nat)) : List Nat :=
  seed ++ reads.flatten

/-- `is_conn_closed` as `State::ReceiveHeaders` computes it (send.rs lines
270-274): `Connection` present means closed iff its value is exactly
`"close"`; absent means closed iff HTTP/1.0. -/
def isConnClosed (is10 : Bool) (headers : List (String × List Nat)) : Bool :=
  match getHeader "connection" headers with
  | some v => v == strBytes "close"
  | none => is10

/-- Terminal outcome of a `SendHttp` exchange after the header block. -/
inductive ExchangeEnd
  | ok (body : List Nat) (keepAlive : Bool)
  | unexpectedEof
  | invalidChunkSize (bytes : List Nat)
  | panicked
deriving DecidableEq, Repr

/-- Post-header dispatch of `State::ReceiveHeaders` (send.rs lines 270-343)
driven to termination: body framing is chunked when `Transfer-Encoding`
equals `"chunked"` (byte equality), else `Content-Length` when its value
parses as decimal, else read-to-EOF; every terminal result carries
`keep_alive = !is_conn_closed`. `leftover` is the slice of the accumulator
beyond the parsed header block; parsed header values are assumed valid for
the builder, so `headers_ref()` is always `Some`. -/
def afterHeaders (is10 : Bool) (headers : List (String × List Nat))
    (leftover : List Nat) (reads : List (List Nat)) : ExchangeEnd :=
  let closed := isConnClosed is10 headers
  let chunked :=
    match getHeader "transfer-encoding" headers with
    | some v => v == strBytes "chunked"
    | none => false
  if chunked then
    match runChunks .chunkSize leftover [] reads with
    | .ok b => .ok b (!closed)
    | .err .unexpectedEof => .unexpectedEof
    | .err (.invalidChunkSize l) => .invalidChunkSize l
    | .panicked => .panicked
  else
    match (getHeader "content-length" headers).bind
        (fun v => if v.all visibleAscii then fromStrRadix10 v else none) with
    | some n =>
      match readExactRun n leftover reads with
      | some b => .ok b (!closed)
      | none => .unexpectedEof
    | none => .ok (readToEndRun leftover reads) (!closed)

/-- The keep-alive rule exactly as the spec words it (for comparison with
the code's rule): HTTP/1.1 lacking `Connection: close`, or HTTP/1.0
carrying `Connection: keep-alive`. -/
def specKeepAlive (is10 : Bool) (headers : List (String × List Nat)) : Bool :=
  if is10 then getHeader "connection" headers == some (strBytes "keep-alive")
  else !(getHeader "connection" headers == some (strBytes "close"))

/-- C6 (counterexample). An HTTP/1.0 response with `Connection: upgrade`
terminates with `keep_alive = true` (the code only compares the value
against `"close"`), while the claim's rule — HTTP/1.0 keeps the connection
only with `Connection: keep-alive` — says false. -/
theorem keep_alive_claim_false :
    afterHeaders true [("connection", strBytes "upgrade")] [] []
        = .ok [] true
    ∧ specKeepAlive true [("connection", strBytes "upgrade")] = false := by
  constructor
  · decide
  · decide

/-- C6 (amended). For every terminated exchange, `keep_alive` is true iff a
`Connection` header is present with first value different from `"close"`,
or no `Connection` header is present and the response is not HTTP/1.0. -/
theorem keep_alive_iff (is10 : Bool) (headers : List (String × List Nat))
    (leftover : List Nat) (reads : List (List Nat)) (body : List Nat) (ka : Bool)
    (h : afterHeaders is10 headers leftover reads = .ok body ka) :
    ka = true
      ↔ ((∃ v, getHeader "connection" headers = some v ∧ v ≠ strBytes "close")
        ∨ (getHeader "connection" headers = none ∧ is10 = false)) := by
  have hka : ka = !isConnClosed is10 headers := by
    simp only [afterHeaders] at h
    split at h
    · split at h <;> simp_all
    · split at h
      · split at h <;> simp_all
      · simp_all
  subst hka
  rw [isConnClosed]
  cases hconn : getHeader "connection" headers with
  | none =>
    simp only [hconn]
    cases is10 <;> simp
  | some v =>
    simp only [hconn]
    cases hveq : v == strBytes "close" with
    | true =>
      have := beq_iff_eq.mp hveq
      simp [this]
    | false =>
      have := beq_eq_false_iff_ne.mp hveq
      simp [this]

/-- Witness for C6 (amended): HTTP/1.1 with `Connection: close` terminates
with `keep_alive = false`, and the characterization agrees. -/
theorem keep_alive_iff_witness :
    afterHeaders false [("connection", strBytes "close")] [] [] = .ok [] false
    ∧ (false = true
        ↔ ((∃ v, getHeader "connection" [("connection", strBytes "close")] = some v
              ∧ v ≠ strBytes "close")
          ∨ (getHeader "connection" [("connection", strBytes "close")] = none
              ∧ false = false))) :=
  ⟨by decide, keep_alive_iff false _ [] [] [] false (by decide)⟩

/-- C7 (counterexample). A parsed response with no headers at all does not
terminate immediately with an empty body: nothing matches `Connection`,
`Transfer-Encoding` or `Content-Length`, so dispatch builds the
read-to-EOF sub-machine; with the bytes `"hi"` left beyond the header
block, the exchange ends with body `"hi"` ≠ `""` (scenario S3). -/
theorem no_headers_claim_false :
    afterHeaders true [] [104, 105] [] = .ok [104, 105] false
    ∧ ([104, 105] : List Nat) ≠ [] := by
  constructor
  · decide
  · decide

/-- C7 (amended). A response parsed with zero headers dispatches to the
read-to-end body machine: the exchange terminates (only) at EOF with body
equal to the leftover bytes plus everything further read, and
`keep_alive = !is_http_10` (no `Connection` header, so
`is_conn_closed = is_http_10`). -/
theorem no_headers_read_to_end (is10 : Bool) (leftover : List Nat)
    (reads : List (List Nat)) :
    afterHeaders is10 [] leftover reads
      = .ok (readToEndRun leftover reads) (!is10) := by
  simp [afterHeaders, isConnClosed, getHeader]

/-! ### RedirectFollower (`FollowHttpRedirects`, follow-redirects.rs) -/

/-- `http::uri::Parts`: optional scheme, authority, path-and-query. -/
structure RedirectUri where
  scheme : Option String
  authority : Option String
  pq : Option String
deriving DecidableEq, Repr

/-- The URI merge of `FollowHttpRedirects::resume` (lines 103-117): a new
scheme replaces the old when present, same for authority; the new
path-and-query replaces the old unconditionally. -/
def mergeUri (old nw : RedirectUri) : RedirectUri where
  scheme := match nw.scheme with | some s => some s | none => old.scheme
  authority := match nw.authority with | some a => some a | none => old.authority
  pq := nw.pq

/-- `StatusCode::is_redirection()`: 3xx. -/
def isRedirection (status : Nat) : Bool := 300 ≤ status && status < 400

/-- Outcome of extracting and parsing the `Location` header of a completed
inner exchange (lines 74-98): absent, undecodable/unparsable, or a URI. -/
inductive LocationHdr
  | absent
  | malformed
  | parsed (u : RedirectUri)
deriving DecidableEq, Repr

/-- One completed inner `SendHttp` exchange, abstracted to what `resume`
inspects: the response status, its `Location` header, and `keep_alive`. -/
structure Hop where
  status : Nat
  location : LocationHdr
  keepAlive : Bool
deriving DecidableEq, Repr

/-- Terminal outcome of driving the follower. `ioPending` stands for an
inner exchange still awaiting I/O when the supply of completed exchanges
runs out. -/
inductive FollowEnd
  | ok (h : Hop)
  | tooManyRedirects
  | missingLocation
  | invalidLocation
  | ioPending
deriving DecidableEq, Repr

/-- Observable trace of a complete drive of `FollowHttpRedirects`:
the terminal result, the `Reset` URIs surfaced to the driver in order
(the driver reopens the transport and resumes after each), and the number
of `SendHttp::new` calls performed inside `resume`. -/
structure FollowOut where
  result : FollowEnd
  resets : List RedirectUri
  made : Nat
deriving DecidableEq, Repr

/-- `FollowHttpRedirects::resume` (lines 61-133) driven to completion over a
supply of completed inner exchanges. Each loop iteration first checks the
remaining-hops counter, then inspects the inner exchange's outcome; on a
followable 3xx it compares scheme and authority *before* merging, rebuilds
the inner machine with the merged URI, decrements the counter, and emits
`Reset` unless `keep_alive ∧ same_scheme ∧ same_authority`. -/
def follow : Nat → RedirectUri → List Hop → FollowOut
  | remaining, _, [] =>
    if remaining = 0 then ⟨.tooManyRedirects, [], 0⟩ else ⟨.ioPending, [], 0⟩
  | remaining, uri, h :: rest =>
    if remaining = 0 then ⟨.tooManyRedirects, [], 0⟩
    else
      if isRedirection h.status then
        match h.location with
        | .absent => ⟨.missingLocation, [], 0⟩
        | .malformed => ⟨.invalidLocation, [], 0⟩
        | .parsed u =>
          let sameScheme := uri.scheme == u.scheme
          let sameAuthority := uri.authority == u.authority
          let merged := mergeUri uri u
          let out := follow (remaining - 1) merged rest
          ⟨out.result,
            (if !h.keepAlive || !sameScheme || !sameAuthority then [merged] else [])
              ++ out.resets,
            out.made + 1⟩
      else ⟨.ok h, [], 0⟩

/-- C1 (counterexample). A relative `Location: /next` after an exchange on
the absolute request URI `http://example.com/a` with `keep_alive = true`
still makes the follower emit `Reset`: the pre-merge comparison
`uri().scheme() == new.scheme()` is `some _ == none`, hence false. -/
theorem relative_location_reset :
    (follow 4 ⟨some "http", some "example.com", some "/a"⟩
        [⟨301, .parsed ⟨none, none, some "/next"⟩, true⟩]).resets
      = [⟨some "http", some "example.com", some "/next"⟩] := by
  decide

/-- C1 (amended). When additionally the previous request URI itself has no
scheme and no authority (origin-form, as in scenario S4), a relative
`Location` after a keep-alive exchange emits no `Reset` for that hop: the
inner exchange is rebuilt with the merged URI (scheme and authority kept,
new path-and-query) and driving continues on the same transport. -/
theorem relative_location_no_reset (n : Nat) (old u : RedirectUri) (st : Nat)
    (rest : List Hop)
    (hos : old.scheme = none) (hoa : old.authority = none)
    (hus : u.scheme = none) (hua : u.authority = none)
    (hst : isRedirection st = true) :
    follow (n + 1) old (⟨st, .parsed u, true⟩ :: rest)
      = ⟨(follow n ⟨none, none, u.pq⟩ rest).result,
          (follow n ⟨none, none, u.pq⟩ rest).resets,
          (follow n ⟨none, none, u.pq⟩ rest).made + 1⟩ := by
  have hmerge : mergeUri old u = ⟨none, none, u.pq⟩ := by
    simp [mergeUri, hus, hua, hos, hoa]
  simp [follow, hst, hmerge, hos, hoa, hus, hua]

/-- Witness for C1 (amended): origin-form request `/a`, `301` with
`Location: /next`, keep-alive; the follower continues without `Reset` and
finishes on the next exchange. -/
theorem relative_location_no_reset_witness :
    ((⟨none, none, some "/a"⟩ : RedirectUri).scheme = none
      ∧ (⟨none, none, some "/a"⟩ : RedirectUri).authority = none
      ∧ (⟨none, none, some "/next"⟩ : RedirectUri).scheme = none
      ∧ (⟨none, none, some "/next"⟩ : RedirectUri).authority = none
      ∧ isRedirection 301 = true)
    ∧ follow (3 + 1) ⟨none, none, some "/a"⟩
          (⟨301, .parsed ⟨none, none, some "/next"⟩, true⟩
            :: [⟨200, .absent, true⟩])
        = ⟨(follow 3 ⟨none, none, some "/next"⟩ [⟨200, .absent, true⟩]).result,
            (follow 3 ⟨none, none, some "/next"⟩ [⟨200, .absent, true⟩]).resets,
            (follow 3 ⟨none, none, some "/next"⟩ [⟨200, .absent, true⟩]).made + 1⟩ :=
  ⟨⟨rfl, rfl, rfl, rfl, by decide⟩,
    relative_location_no_reset 3 _ _ 301 _ rfl rfl rfl rfl (by decide)⟩

theorem follow_made_le (hops : List Hop) :
    ∀ (n : Nat) (uri : RedirectUri), (follow n uri hops).made ≤ n := by
  induction hops with
  | nil =>
    intro n uri
    rw [follow]
    split <;> simp
  | cons h rest ih =>
    intro n uri
    rw [follow]
    split
    · simp
    · split
      · cases h.location with
        | absent => simp
        | malformed => simp
        | parsed u =>
          have := ih (n - 1) (mergeUri uri u)
          simp only
          rename_i hn _
          omega
      · simp

theorem follow_result_cons {n : Nat} {u : RedirectUri} {h : Hop} {rs : List Hop}
    {w : RedirectUri} (hr : isRedirection h.status = true)
    (hw : h.location = .parsed w) :
    (follow (n + 1) u (h :: rs)).result = (follow n (mergeUri u w) rs).result := by
  rw [follow]
  simp [hr, hw]

theorem follow_zero_result (u : RedirectUri) (l : List Hop) :
    (follow 0 u l).result = .tooManyRedirects := by
  cases l <;> rw [follow] <;> simp

/-- C8. The follower instantiates at most 5 inner exchanges: the counter
starts at 4 and each followed 3xx decrements it, so `made + 1 ≤ 5` for any
input; and once four redirects have been followed the next loop iteration
fails `TooManyRedirects` without driving the fifth exchange, whatever it
would have returned. -/
theorem redirect_hop_bound (uri : RedirectUri) (hops : List Hop)
    (h1 h2 h3 h4 : Hop) (rest : List Hop)
    (hf : ∀ h ∈ [h1, h2, h3, h4],
      isRedirection h.status = true ∧ ∃ u, h.location = .parsed u) :
    (follow 4 uri hops).made + 1 ≤ 5
    ∧ (follow 4 uri (h1 :: h2 :: h3 :: h4 :: rest)).result = .tooManyRedirects := by
  constructor
  · have := follow_made_le hops 4 uri
    omega
  · obtain ⟨u1, hl1⟩ := (hf h1 (by simp)).2
    obtain ⟨u2, hl2⟩ := (hf h2 (by simp)).2
    obtain ⟨u3, hl3⟩ := (hf h3 (by simp)).2
    obtain ⟨u4, hl4⟩ := (hf h4 (by simp)).2
    rw [show (4 : Nat) = 3 + 1 from rfl,
      follow_result_cons (hf h1 (by simp)).1 hl1,
      show (3 : Nat) = 2 + 1 from rfl,
      follow_result_cons (hf h2 (by simp)).1 hl2,
      show (2 : Nat) = 1 + 1 from rfl,
      follow_result_cons (hf h3 (by simp)).1 hl3,
      show (1 : Nat) = 0 + 1 from rfl,
      follow_result_cons (hf h4 (by simp)).1 hl4,
      follow_zero_result]

/-- Witness for C8: four followable `301` hops exhaust the budget; a fifth
completed exchange (a `200`) is never driven. -/
theorem redirect_hop_bound_witness :
    (∀ h ∈ [(⟨301, .parsed ⟨none, none, some "/r"⟩, true⟩ : Hop),
            ⟨301, .parsed ⟨none, none, some "/r"⟩, true⟩,
            ⟨301, .parsed ⟨none, none, some "/r"⟩, true⟩,
            ⟨301, .parsed ⟨none, none, some "/r"⟩, true⟩],
        isRedirection h.status = true ∧ ∃ u, h.location = .parsed u)
    ∧ ((follow 4 ⟨none, none, some "/a"⟩
          [⟨301, .parsed ⟨none, none, some "/r"⟩, true⟩,
            ⟨301, .parsed ⟨none, none, some "/r"⟩, true⟩,
            ⟨301, .parsed ⟨none, none, some "/r"⟩, true⟩,
            ⟨301, .parsed ⟨none, none, some "/r"⟩, true⟩]).made + 1 ≤ 5
      ∧ (follow 4 ⟨none, none, some "/a"⟩
            (⟨301, .parsed ⟨none, none, some "/r"⟩, true⟩
              :: ⟨301, .parsed ⟨none, none, some "/r"⟩, true⟩
              :: ⟨301, .parsed ⟨none, none, some "/r"⟩, true⟩
              :: ⟨301, .parsed ⟨none, none, some "/r"⟩, true⟩
              :: [⟨200, .absent, true⟩])).result = .tooManyRedirects) :=
  ⟨by intro h hh; fin_cases hh <;> exact ⟨by decide, ⟨_, rfl⟩⟩,
    redirect_hop_bound ⟨none, none, some "/a"⟩ _ _ _ _ _ [⟨200, .absent, true⟩]
      (by intro h hh; fin_cases hh <;> exact ⟨by decide, ⟨_, rfl⟩⟩)⟩

end IoHttp
